import Mathlib

/-!
Shallow embedding of the core of the spt-mod-manager repository
(crate `sptmm_lib`, with `ZipData` shared from the earlier `src` iteration),
together with theorems settling the specification claims.

Modelling conventions:
* Rust `String`/`&str` become Lean `String`; byte buffers (`Vec<u8>`) become
  `List Nat`.
* `sha256::digest` (external crate) is abstracted as an injective encoding of
  the byte list; only determinism and concrete inequality of distinct inputs
  are used.
* File-system effects are made explicit: the installer state carries the game
  files and the install-index records; the cache state carries folders of
  named files.
* Fallible Rust functions returning `anyhow::Result` become `Except String`.
-/

/-- Model of `versions::Versioning` restricted to ideal semantic versions
`major.minor.patch`, which is what the spec's claims quantify over.
Ordering is lexicographic, as in the crate's `Ord` instance for ideal
versions. -/
structure SemVer where
  major : Nat
  minor : Nat
  patch : Nat
deriving DecidableEq, Repr

/-- Lexicographic comparison on `SemVer`, the model of `Versioning::cmp`. -/
def SemVer.cmp (a b : SemVer) : Ordering :=
  (compare a.major b.major).then ((compare a.minor b.minor).then (compare a.patch b.patch))

/-- Rendering of an ideal version, the model of `Versioning`'s `Display`. -/
def SemVer.render (v : SemVer) : String :=
  toString v.major ++ "." ++ toString v.minor ++ "." ++ toString v.patch

theorem natCompareSwap (m n : Nat) : compare n m = (compare m n).swap := by
  rcases Nat.lt_trichotomy m n with h | h | h
  · rw [Nat.compare_eq_lt.mpr h, Nat.compare_eq_gt.mpr h]; rfl
  · subst h; rw [Nat.compare_eq_eq.mpr rfl]; rfl
  · rw [Nat.compare_eq_gt.mpr h, Nat.compare_eq_lt.mpr h]; rfl

theorem SemVer.cmp_self (a : SemVer) : SemVer.cmp a a = .eq := by
  unfold SemVer.cmp
  rw [Nat.compare_eq_eq.mpr rfl, Nat.compare_eq_eq.mpr rfl, Nat.compare_eq_eq.mpr rfl]
  rfl

theorem SemVer.cmp_swap (a b : SemVer) : SemVer.cmp b a = (SemVer.cmp a b).swap := by
  unfold SemVer.cmp
  rw [natCompareSwap a.major b.major, natCompareSwap a.minor b.minor,
    natCompareSwap a.patch b.patch]
  cases compare a.major b.major <;> cases compare a.minor b.minor <;>
    cases compare a.patch b.patch <;> rfl

/-- Split a character list at every `'.'`; always returns a non-empty list of
(possibly empty) segments. -/
def splitDots : List Char → List (List Char)
  | [] => [[]]
  | c :: rest =>
    if c = '.' then [] :: splitDots rest
    else
      match splitDots rest with
      | [] => [[c]]
      | seg :: segs => (c :: seg) :: segs

theorem splitDots_cons_dot (rest : List Char) :
    splitDots ('.' :: rest) = [] :: splitDots rest := by
  simp [splitDots]

theorem splitDots_cons_ne (c : Char) (rest : List Char) (hc : c ≠ '.') :
    splitDots (c :: rest) = match splitDots rest with
      | [] => [[c]]
      | seg :: segs => (c :: seg) :: segs := by
  simp [splitDots, hc]

theorem splitDots_ne_nil (s : List Char) : splitDots s ≠ [] := by
  cases s with
  | nil => simp [splitDots]
  | cons c rest =>
    simp only [splitDots]
    split
    · simp
    · split <;> simp

/-- The effect of `separated(0.., take_until(0.., "."), ".")` with
`parse_peek` as used by the cache: the output segments are all dot-separated
pieces of the input except the one after the last dot, and the remainder
starts at the last dot.  An input without a dot produces no segments and the
whole input as remainder.  The behaviour is pinned down by the unit tests in
`cache_mod_access.rs`. -/
def sepLoop (s : List Char) : List (List Char) × List Char :=
  match splitDots s with
  | [] => ([], s)
  | [_] => ([], s)
  | seg :: seg2 :: segs =>
    ((seg :: seg2 :: segs).dropLast,
      '.' :: (seg :: seg2 :: segs).getLast (by simp))

/-- `Vec::join(".")` on character-list segments. -/
def joinDots : List (List Char) → List Char
  | [] => []
  | [s] => s
  | s :: rest => s ++ '.' :: joinDots rest

/-- Model of `separate_file_and_ext` in
`sptmm_lib/src/remote_mod_access/cache_mod_access.rs`: the winnow parse
splits the name into dot-separated segments (rejoined with `.`) and the
remainder from the last dot onward as the extension; no dot means no
extension. -/
def separate_file_and_ext (s : String) : String × Option String :=
  let (segs, rem) := sepLoop s.data
  if segs.isEmpty then (String.mk rem, none)
  else (String.mk (joinDots segs), some (String.mk rem))

theorem splitDots_no_dot (s : List Char) (h : '.' ∉ s) : splitDots s = [s] := by
  induction s with
  | nil => rfl
  | cons c rest ih =>
    have hc : c ≠ '.' := by rintro rfl; exact h (by simp)
    have hr : '.' ∉ rest := fun hm => h (by simp [hm])
    rw [splitDots_cons_ne c rest hc, ih hr]

theorem splitDots_append_dot (xs ys : List Char) :
    splitDots (xs ++ '.' :: ys) = splitDots xs ++ splitDots ys := by
  induction xs with
  | nil => rw [List.nil_append, splitDots_cons_dot]; rfl
  | cons c rest ih =>
    by_cases hc : c = '.'
    · subst hc
      rw [List.cons_append, splitDots_cons_dot, splitDots_cons_dot, ih, List.cons_append]
    · rw [List.cons_append, splitDots_cons_ne c _ hc, splitDots_cons_ne c rest hc, ih]
      rcases hr : splitDots rest with _ | ⟨seg, segs⟩
      · exact absurd hr (splitDots_ne_nil rest)
      · rfl

theorem joinDots_splitDots (s : List Char) : joinDots (splitDots s) = s := by
  induction s with
  | nil => rfl
  | cons c rest ih =>
    by_cases hc : c = '.'
    · subst hc
      rw [splitDots_cons_dot]
      rcases hr : splitDots rest with _ | ⟨seg, segs⟩
      · exact absurd hr (splitDots_ne_nil rest)
      · rw [hr] at ih
        rw [show joinDots ([] :: seg :: segs) = [] ++ '.' :: joinDots (seg :: segs) from rfl]
        simp [ih]
    · rw [splitDots_cons_ne c rest hc]
      rcases hr : splitDots rest with _ | ⟨seg, segs⟩
      · exact absurd hr (splitDots_ne_nil rest)
      · rw [hr] at ih
        rcases segs with _ | ⟨seg2, segs⟩
        · simpa [joinDots] using ih
        · rw [show joinDots ((c :: seg) :: seg2 :: segs) =
              (c :: seg) ++ '.' :: joinDots (seg2 :: segs) from rfl]
          rw [show joinDots (seg :: seg2 :: segs) =
              seg ++ '.' :: joinDots (seg2 :: segs) from rfl] at ih
          simpa using ih

theorem sepLoop_no_dot (s : List Char) (h : '.' ∉ s) : sepLoop s = ([], s) := by
  unfold sepLoop
  rw [splitDots_no_dot s h]

theorem sepLoop_last_dot (a b : List Char) (hb : '.' ∉ b) :
    sepLoop (a ++ '.' :: b) = (splitDots a, '.' :: b) := by
  have hsplit : splitDots (a ++ '.' :: b) = splitDots a ++ [b] := by
    rw [splitDots_append_dot, splitDots_no_dot b hb]
  rcases ha : splitDots a with _ | ⟨x, xs⟩
  · exact absurd ha (splitDots_ne_nil a)
  · unfold sepLoop
    rw [hsplit, ha]
    rcases xs with _ | ⟨y, ys⟩
    · simp
    · simp only [List.cons_append, Prod.mk.injEq]
      constructor
      · show (x :: y :: (ys ++ [b])).dropLast = x :: y :: ys
        rw [show x :: y :: (ys ++ [b]) = (x :: y :: ys) ++ [b] by simp,
          List.dropLast_concat]
      · show '.' :: (x :: y :: (ys ++ [b])).getLast (by simp) = '.' :: b
        congr 1
        rw [List.getLast_congr _ _ (show x :: y :: (ys ++ [b]) = (x :: y :: ys) ++ [b] by simp)]
        exact List.getLast_concat (l := x :: y :: ys) (a := b)

theorem string_mk_data (s : String) : String.mk s.data = s := by
  cases s; rfl

theorem string_data_append (a b : String) : (a ++ b).data = a.data ++ b.data := by
  cases a; cases b; rfl

/-- `separate_file_and_ext` on a name with no dot: the whole name, no
extension. -/
theorem separate_no_dot (s : String) (h : '.' ∉ s.data) :
    separate_file_and_ext s = (s, none) := by
  unfold separate_file_and_ext
  rw [sepLoop_no_dot s.data h]
  simp [string_mk_data]

/-- `separate_file_and_ext` splits at the last dot: the extension is the last
dot plus everything after it. -/
theorem separate_last_dot (a b : String) (hb : '.' ∉ b.data) :
    separate_file_and_ext (a ++ "." ++ b) = (a, some ("." ++ b)) := by
  unfold separate_file_and_ext
  have hdata : (a ++ "." ++ b).data = a.data ++ '.' :: b.data := by
    rw [string_data_append, string_data_append]
    simp [show ("." : String).data = ['.'] from rfl]
  rw [hdata, sepLoop_last_dot a.data b.data hb]
  have hne := splitDots_ne_nil a.data
  simp only [List.isEmpty_iff]
  rw [if_neg hne]
  simp only [Prod.mk.injEq]
  constructor
  · rw [joinDots_splitDots]
  · rw [show ("." ++ b : String) = String.mk ('.' :: b.data) from by
      cases b; rfl]

/-- Classification of an archive entry, from `sptmm_lib/src/spt_access.rs`. -/
inductive FileType where
  | unknown
  | client
  | server
deriving DecidableEq, Repr

/-- Install target, from `sptmm_lib/src/spt_access.rs`. -/
inductive InstallTarget where
  | server
  | client
deriving DecidableEq, Repr

/-- Model of `file_parser` in `sptmm_lib/src/spt_access.rs`: winnow
`dispatch! { take_until(0.., "/"); "user" => Server, "BepInEx" => Client,
_ => Unknown }`, with the parse failure (no `/` present, so `take_until`
fails) collapsed to `Unknown` by `unwrap_or`. -/
def file_parser_fn (p : String) : FileType :=
  if '/' ∈ p.data then
    let top := String.mk (p.data.takeWhile (fun c => c ≠ '/'))
    if top = "user" then .server
    else if top = "BepInEx" then .client
    else .unknown
  else .unknown

/-- The `matches!` in `ZipData::should_install`
(`src/spt_access/zip_data.rs`): `(Client, Client) | (Server, _)`. -/
def FileType.should_install (ft : FileType) (t : InstallTarget) : Bool :=
  match ft, t with
  | .client, .client => true
  | .server, _ => true
  | _, _ => false

/-- Abstraction of `sha256::digest` from the external `sha256` crate: an
injective encoding of the byte list.  Only determinism (and inequality of
encodings of distinct concrete inputs) is relied on. -/
def sha256_digest (data : List Nat) : String :=
  toString data

/-- Model of `ZipData` (`src/spt_access/zip_data.rs`). -/
structure ZipData where
  data : List Nat
  hash : String
  zip_path : String
  file_type : FileType
deriving DecidableEq, Repr

/-- `ZipData::new`: hash the bytes and classify the path. -/
def ZipData.new (data : List Nat) (zip_path : String) : ZipData :=
  { data := data, hash := sha256_digest data, zip_path := zip_path,
    file_type := file_parser_fn zip_path }

def ZipData.should_install (z : ZipData) (t : InstallTarget) : Bool :=
  z.file_type.should_install t

/-- `HashMap::insert` / overwriting file creation on an association list. -/
def assocInsert {β : Type} (m : List (String × β)) (k : String) (v : β) :
    List (String × β) :=
  if m.any (fun p => p.1 == k) then
    m.map (fun p => if p.1 == k then (k, v) else p)
  else m ++ [(k, v)]

/-- `space_mapper` in `shared_traits.rs`: spaces and hyphens become
underscores. -/
def space_mapper (c : Char) : Char :=
  if c = ' ' then '_' else if c = '-' then '_' else c

/-- `ModName::to_file_name`: map every character through `space_mapper`. -/
def to_file_name (name : String) : String :=
  String.mk (name.data.map space_mapper)

/-- Explicit file-system state owned by `SptAccess`: the files written under
the game root and the per-mod install records in the `install_hash` index. -/
structure SptState where
  gameFiles : List (String × List Nat)
  installIndex : List (String × List (String × String))
deriving DecidableEq, Repr

/-- The entry loop of `SptAccess::install_mod`: accumulates chunk data in
`buffer`, which is only reset after an entry that was actually installed
(an entry that is skipped leaves its bytes in the buffer — faithful to the
source, where the reset sits after the `should_install` early `continue`). -/
def install_loop (target : InstallTarget) :
    List (String × List Nat) → List Nat → List (String × String) →
    List (String × List Nat) → Nat →
    List (String × String) × List (String × List Nat) × Nat
  | [], _, map, writes, count => (map, writes, count)
  | (p, d) :: rest, buffer, map, writes, count =>
    let zip_data := ZipData.new (buffer ++ d) p
    if zip_data.should_install target then
      install_loop target rest []
        (assocInsert map zip_data.zip_path zip_data.hash)
        (writes ++ [(zip_data.zip_path, zip_data.data)]) (count + 1)
    else
      install_loop target rest (buffer ++ d) map writes count

/-- Model of `SptAccess::install_mod` (`sptmm_lib/src/spt_access.rs`): walk
the archive, write every matching entry under the game root, and — unless
zero entries matched, which is a hard error — overwrite the per-mod install
record with the accumulated path→hash map. -/
def install_mod (s : SptState) (archive : List (String × List Nat))
    (modName : String) (target : InstallTarget) : Except String SptState :=
  let result := install_loop target archive [] [] [] 0
  if result.2.2 = 0 then
    .error "No files with a structured installation path was found"
  else
    .ok { gameFiles := result.2.1.foldl (fun fs w => assocInsert fs w.1 w.2) s.gameFiles,
          installIndex := assocInsert s.installIndex (to_file_name modName) result.1 }

/-- The entry loop of `SptAccess::is_same_installed_version`, with the same
buffer-accumulation behaviour as the install loop. -/
def check_loop (map : List (String × String)) (target : InstallTarget) :
    List (String × List Nat) → List Nat → Bool
  | [], _ => true
  | (p, d) :: rest, buffer =>
    let zip_data := ZipData.new (buffer ++ d) p
    if zip_data.should_install target then
      if map.lookup zip_data.zip_path = some zip_data.hash then
        check_loop map target rest []
      else false
    else check_loop map target rest (buffer ++ d)

/-- Model of `SptAccess::is_same_installed_version`: no record file means
`false`; otherwise every entry that would be installed must be present in
the record with the hash the loop computes for it. -/
def is_same_installed_version (s : SptState) (archive : List (String × List Nat))
    (modName : String) (target : InstallTarget) : Bool :=
  match s.installIndex.lookup (to_file_name modName) with
  | none => false
  | some map => check_loop map target archive []

/-- Declarative description of which (path, accumulated bytes) pairs the two
loops above act on: the entries whose classification matches the target,
each carrying the bytes of the skipped entries since the last installed one
prepended to its own. -/
def installEntriesAcc (target : InstallTarget) :
    List (String × List Nat) → List Nat → List (String × List Nat)
  | [], _ => []
  | (p, d) :: rest, buffer =>
    let buf := buffer ++ d
    if (file_parser_fn p).should_install target then
      (p, buf) :: installEntriesAcc target rest []
    else installEntriesAcc target rest buf

/-- The paths `install_mod` extracts from an archive for a target. -/
def installed_paths (archive : List (String × List Nat)) (target : InstallTarget) :
    List String :=
  (installEntriesAcc target archive []).map Prod.fst

theorem install_loop_spec (t : InstallTarget) (l : List (String × List Nat)) :
    ∀ (buf : List Nat) (map : List (String × String))
      (writes : List (String × List Nat)) (count : Nat),
    install_loop t l buf map writes count =
      ((installEntriesAcc t l buf).foldl
          (fun m e => assocInsert m e.1 (sha256_digest e.2)) map,
        writes ++ installEntriesAcc t l buf,
        count + (installEntriesAcc t l buf).length) := by
  induction l with
  | nil => intro buf map writes count; simp [install_loop, installEntriesAcc]
  | cons e rest ih =>
    intro buf map writes count
    obtain ⟨p, d⟩ := e
    simp only [install_loop, installEntriesAcc, ZipData.should_install, ZipData.new]
    by_cases h : (file_parser_fn p).should_install t = true
    · rw [if_pos h, if_pos h, ih]
      simp only [Prod.mk.injEq, List.foldl_cons, List.length_cons]
      refine ⟨by simp, by simp, by omega⟩
    · rw [if_neg h, if_neg h, ih]

theorem check_loop_spec (map : List (String × String)) (t : InstallTarget)
    (l : List (String × List Nat)) :
    ∀ buf, check_loop map t l buf = true ↔
      ∀ e ∈ installEntriesAcc t l buf, map.lookup e.1 = some (sha256_digest e.2) := by
  induction l with
  | nil => intro buf; simp [check_loop, installEntriesAcc]
  | cons e rest ih =>
    intro buf
    obtain ⟨p, d⟩ := e
    simp only [check_loop, installEntriesAcc, ZipData.should_install, ZipData.new]
    by_cases h : (file_parser_fn p).should_install t = true
    · rw [if_pos h, if_pos h]
      by_cases hl : map.lookup p = some (sha256_digest (buf ++ d))
      · rw [if_pos hl, ih []]
        simp only [List.mem_cons]
        constructor
        · intro hall e' hmem
          rcases hmem with rfl | hmem
          · simpa using hl
          · exact hall e' hmem
        · intro hall e' hmem
          exact hall e' (Or.inr hmem)
      · rw [if_neg hl]
        simp only [Bool.false_eq_true, false_iff, List.mem_cons, not_forall]
        exact ⟨(p, buf ++ d), Or.inl rfl, by simpa using hl⟩
    · rw [if_neg h, if_neg h]
      exact ih (buf ++ d)

theorem installEntriesAcc_fst (t : InstallTarget) (l : List (String × List Nat)) :
    ∀ buf, (installEntriesAcc t l buf).map Prod.fst =
      (l.filter (fun e => (file_parser_fn e.1).should_install t)).map Prod.fst := by
  induction l with
  | nil => intro buf; simp [installEntriesAcc]
  | cons e rest ih =>
    intro buf
    obtain ⟨p, d⟩ := e
    by_cases h : (file_parser_fn p).should_install t = true
    · simp [installEntriesAcc, List.filter_cons, h, ih]
    · simp [installEntriesAcc, List.filter_cons, h, ih]

theorem mem_installed_paths (archive : List (String × List Nat)) (t : InstallTarget)
    (p : String) :
    p ∈ installed_paths archive t ↔
      ((∃ d, (p, d) ∈ archive) ∧ (file_parser_fn p).should_install t = true) := by
  unfold installed_paths
  rw [installEntriesAcc_fst]
  simp only [List.mem_map, List.mem_filter]
  constructor
  · rintro ⟨⟨q, dq⟩, ⟨hmem, hsi⟩, rfl⟩
    exact ⟨⟨dq, hmem⟩, hsi⟩
  · rintro ⟨⟨d, hd⟩, hsi⟩
    exact ⟨(p, d), ⟨hd, hsi⟩, rfl⟩

/-- C1: for every archive entry, installing with target Client extracts both
Client-classified and Server-classified entries, installing with target
Server extracts only Server-classified entries, and Unknown-classified
entries are extracted under neither target; classification is by the path's
top-level directory (`user` prefix → Server, `BepInEx` prefix → Client,
anything else → Unknown, as `file_parser` decides). -/
theorem C1_install_target_asymmetry (archive : List (String × List Nat))
    (e : String × List Nat) (he : e ∈ archive) :
    (e.1 ∈ installed_paths archive .client ↔
      (file_parser_fn e.1 = .client ∨ file_parser_fn e.1 = .server))
    ∧ (e.1 ∈ installed_paths archive .server ↔ file_parser_fn e.1 = .server)
    ∧ (file_parser_fn e.1 = .unknown → ∀ t, e.1 ∉ installed_paths archive t) := by
  have hex : ∃ d, (e.1, d) ∈ archive := ⟨e.2, by simpa using he⟩
  refine ⟨?_, ?_, ?_⟩
  · rw [mem_installed_paths]
    cases hft : file_parser_fn e.1 <;>
      simp [FileType.should_install, hex, hft]
  · rw [mem_installed_paths]
    cases hft : file_parser_fn e.1 <;>
      simp [FileType.should_install, hex, hft]
  · intro hft t hmem
    have := ((mem_installed_paths archive t e.1).mp hmem).2
    rw [hft] at this
    cases t <;> simp [FileType.should_install] at this

/-- Witness for C1 on a concrete archive with one server-root entry, one
client-root entry and one unstructured entry. -/
theorem C1_install_target_asymmetry_witness :
    (("user/mods/a/p.json", [2]) ∈
        [("user/mods/a/p.json", ([2] : List Nat)), ("BepInEx/plugins/b.dll", [3]), ("junk", [4])])
    ∧ ((("user/mods/a/p.json", [2]) : String × List Nat).1 ∈
        installed_paths
          [("user/mods/a/p.json", [2]), ("BepInEx/plugins/b.dll", [3]), ("junk", [4])] .client ↔
        (file_parser_fn "user/mods/a/p.json" = .client ∨
          file_parser_fn "user/mods/a/p.json" = .server))
      ∧ ((("user/mods/a/p.json", [2]) : String × List Nat).1 ∈
        installed_paths
          [("user/mods/a/p.json", [2]), ("BepInEx/plugins/b.dll", [3]), ("junk", [4])] .server ↔
          file_parser_fn "user/mods/a/p.json" = .server)
      ∧ (file_parser_fn "user/mods/a/p.json" = .unknown → ∀ t,
          "user/mods/a/p.json" ∉ installed_paths
            [("user/mods/a/p.json", [2]), ("BepInEx/plugins/b.dll", [3]), ("junk", [4])] t) :=
  ⟨by decide,
    C1_install_target_asymmetry
      [("user/mods/a/p.json", [2]), ("BepInEx/plugins/b.dll", [3]), ("junk", [4])]
      ("user/mods/a/p.json", [2]) (by decide)⟩

/-- C10: an archive-entry path containing no `/` separator — including a path
exactly equal to a recognized top-level prefix such as `user` or `BepInEx` —
is classified Unknown (the winnow `take_until` fails, collapsed by
`unwrap_or`) and is never extracted by `install_mod`, for either target. -/
theorem C10_no_separator_is_unknown (p : String) (h : '/' ∉ p.data) :
    file_parser_fn p = .unknown ∧
      ∀ (archive : List (String × List Nat)) (t : InstallTarget),
        p ∉ installed_paths archive t := by
  have hft : file_parser_fn p = .unknown := by
    simp [file_parser_fn, h]
  refine ⟨hft, ?_⟩
  intro archive t hmem
  have := ((mem_installed_paths archive t p).mp hmem).2
  rw [hft] at this
  cases t <;> simp [FileType.should_install] at this

/-- Witness for C10 at the two recognized prefixes themselves. -/
theorem C10_no_separator_is_unknown_witness :
    ('/' ∉ "user".data ∧
      (file_parser_fn "user" = .unknown ∧
        ∀ (archive : List (String × List Nat)) (t : InstallTarget),
          "user" ∉ installed_paths archive t))
    ∧ ('/' ∉ "BepInEx".data ∧
      (file_parser_fn "BepInEx" = .unknown ∧
        ∀ (archive : List (String × List Nat)) (t : InstallTarget),
          "BepInEx" ∉ installed_paths archive t)) :=
  ⟨⟨by decide, C10_no_separator_is_unknown "user" (by decide)⟩,
    ⟨by decide, C10_no_separator_is_unknown "BepInEx" (by decide)⟩⟩

theorem lookup_cons_self {β : Type} (k : String) (b : β) (l : List (String × β)) :
    List.lookup k ((k, b) :: l) = some b := by
  simp [List.lookup_cons]

theorem lookup_cons_ne {β : Type} (k k' : String) (b : β) (l : List (String × β))
    (h : k ≠ k') :
    List.lookup k ((k', b) :: l) = List.lookup k l := by
  simp [List.lookup_cons, beq_false_of_ne h]

theorem lookup_map_replace {β : Type} (k : String) (v : β) :
    ∀ m : List (String × β), m.any (fun p => p.1 == k) = true →
      List.lookup k (m.map (fun p => if p.1 == k then (k, v) else p)) = some v := by
  intro m
  induction m with
  | nil => intro h; simp at h
  | cons a rest ih =>
    intro h
    obtain ⟨a1, a2⟩ := a
    by_cases h1 : a1 = k
    · subst h1
      rw [List.map_cons, if_pos (by simp), lookup_cons_self]
    · have hrest : rest.any (fun p => p.1 == k) = true := by
        simpa [h1] using h
      rw [List.map_cons, if_neg (by simpa using h1), lookup_cons_ne _ _ _ _ (Ne.symm h1)]
      exact ih hrest

theorem lookup_map_replace_ne {β : Type} (k k' : String) (v : β) (h : k ≠ k') :
    ∀ m : List (String × β),
      List.lookup k (m.map (fun p => if p.1 == k' then (k', v) else p)) = List.lookup k m := by
  intro m
  induction m with
  | nil => rfl
  | cons a rest ih =>
    obtain ⟨a1, a2⟩ := a
    by_cases h1 : a1 = k'
    · subst h1
      rw [List.map_cons, if_pos (by simp), lookup_cons_ne _ _ _ _ h,
        lookup_cons_ne _ _ _ _ h, ih]
    · by_cases h2 : a1 = k
      · subst h2
        rw [List.map_cons, if_neg (by simpa using h1), lookup_cons_self, lookup_cons_self]
      · rw [List.map_cons, if_neg (by simpa using h1), lookup_cons_ne _ _ _ _ (Ne.symm h2),
          lookup_cons_ne _ _ _ _ (Ne.symm h2), ih]

theorem lookup_append_singleton {β : Type} (k : String) (v : β) :
    ∀ m : List (String × β), m.any (fun p => p.1 == k) = false →
      List.lookup k (m ++ [(k, v)]) = some v := by
  intro m
  induction m with
  | nil => intro _; exact lookup_cons_self k v []
  | cons a rest ih =>
    intro h
    obtain ⟨a1, a2⟩ := a
    have h1 : a1 ≠ k := by
      intro hk; subst hk; simp at h
    have hrest : rest.any (fun p => p.1 == k) = false := by
      simpa [h1] using h
    rw [List.cons_append, lookup_cons_ne _ _ _ _ (Ne.symm h1)]
    exact ih hrest

theorem lookup_append_singleton_ne {β : Type} (k k' : String) (v : β) (h : k ≠ k') :
    ∀ m : List (String × β),
      List.lookup k (m ++ [(k', v)]) = List.lookup k m := by
  intro m
  induction m with
  | nil => simpa using lookup_cons_ne k k' v [] h
  | cons a rest ih =>
    obtain ⟨a1, a2⟩ := a
    by_cases h2 : a1 = k
    · subst h2
      rw [List.cons_append, lookup_cons_self, lookup_cons_self]
    · rw [List.cons_append, lookup_cons_ne _ _ _ _ (Ne.symm h2),
        lookup_cons_ne _ _ _ _ (Ne.symm h2), ih]

/-- `assocInsert` makes the inserted key map to the inserted value. -/
theorem lookup_assocInsert_self {β : Type} (m : List (String × β)) (k : String) (v : β) :
    List.lookup k (assocInsert m k v) = some v := by
  unfold assocInsert
  by_cases hany : m.any (fun p => p.1 == k) = true
  · rw [if_pos hany]
    exact lookup_map_replace k v m hany
  · rw [Bool.not_eq_true] at hany
    rw [if_neg (by simp [hany])]
    exact lookup_append_singleton k v m hany

/-- `assocInsert` leaves other keys untouched. -/
theorem lookup_assocInsert_ne {β : Type} (m : List (String × β)) (k k' : String) (v : β)
    (h : k ≠ k') :
    List.lookup k (assocInsert m k' v) = List.lookup k m := by
  unfold assocInsert
  by_cases hany : m.any (fun p => p.1 == k') = true
  · rw [if_pos hany]
    exact lookup_map_replace_ne k k' v h m
  · rw [Bool.not_eq_true] at hany
    rw [if_neg (by simp [hany])]
    exact lookup_append_singleton_ne k k' v h m

theorem lookup_foldl_assocInsert_not_mem (entries : List (String × List Nat)) :
    ∀ (m0 : List (String × String)) (k : String), k ∉ entries.map Prod.fst →
      List.lookup k (entries.foldl
        (fun m x => assocInsert m x.1 (sha256_digest x.2)) m0) = List.lookup k m0 := by
  induction entries with
  | nil => intro m0 k _; rfl
  | cons e rest ih =>
    intro m0 k hk
    have hne : k ≠ e.1 := by
      intro h; exact hk (by simp [h])
    have hk' : k ∉ rest.map Prod.fst := fun h => hk (by simp [h])
    rw [List.foldl_cons, ih _ k hk', lookup_assocInsert_ne _ _ _ _ hne]

/-- With distinct entry paths, the record map built by the install loop sends
each entry's path to the digest of that entry's accumulated bytes. -/
theorem lookup_foldl_assocInsert (entries : List (String × List Nat)) :
    ∀ (m0 : List (String × String)), (entries.map Prod.fst).Nodup →
      ∀ e ∈ entries,
        List.lookup e.1 (entries.foldl
          (fun m x => assocInsert m x.1 (sha256_digest x.2)) m0) =
          some (sha256_digest e.2) := by
  induction entries with
  | nil => intro m0 _ e he; simp at he
  | cons f rest ih =>
    intro m0 hnd e he
    have hnd' : (rest.map Prod.fst).Nodup := by
      simpa using hnd.of_cons
    rcases List.mem_cons.mp he with rfl | he'
    · have hf : e.1 ∉ rest.map Prod.fst := by
        simp only [List.map_cons, List.nodup_cons] at hnd
        exact hnd.1
      rw [List.foldl_cons, lookup_foldl_assocInsert_not_mem rest _ e.1 hf,
        lookup_assocInsert_self]
    · rw [List.foldl_cons]
      exact ih _ hnd' e he'

deriving instance DecidableEq for Except

/-- `install_mod` in closed form: error iff no entry matched the target,
otherwise the matching entries are written and the record map is persisted
under the mod's file name, overwriting any previous record. -/
theorem install_mod_spec (s : SptState) (archive : List (String × List Nat))
    (name : String) (target : InstallTarget) :
    install_mod s archive name target =
      if (installEntriesAcc target archive []).length = 0 then
        .error "No files with a structured installation path was found"
      else
        .ok { gameFiles := (installEntriesAcc target archive []).foldl
                (fun fs w => assocInsert fs w.1 w.2) s.gameFiles,
              installIndex := assocInsert s.installIndex (to_file_name name)
                ((installEntriesAcc target archive []).foldl
                  (fun m e => assocInsert m e.1 (sha256_digest e.2)) []) } := by
  unfold install_mod
  rw [install_loop_spec]
  simp

/-- C3 counterexample: (a) an archive whose unstructured entry precedes the
installable one — the record holds exactly the installable entry's own
content hash, yet the check returns `false` (the loop hashes the skipped
entry's bytes prepended); (b) an empty-but-present record with an archive
containing no installable entry — the check returns `true`, though the claim
says an empty record yields `false`. -/
theorem C3_counterexample :
    (is_same_installed_version
        { gameFiles := [], installIndex := [("m", [("user/a", sha256_digest [2])])] }
        [("x", [1]), ("user/a", [2])] "m" .server = false
      ∧ List.lookup "user/a" [("user/a", sha256_digest [2])] = some (sha256_digest [2]))
    ∧ is_same_installed_version
        { gameFiles := [], installIndex := [("m", [])] }
        [("x", [1])] "m" .server = true := by
  decide

/-- C3 (amended): the check returns `true` iff a record for the mod's file
name exists and every entry the install loop would install for the target is
mapped, in that record, to the digest of its accumulated bytes (the entry's
bytes with the bytes of the skipped entries since the last installed entry
prepended).  An absent record yields `false`; an empty record yields `false`
exactly when at least one entry would be installed. -/
theorem C3_amended_idempotency_check (s : SptState)
    (archive : List (String × List Nat)) (name : String) (target : InstallTarget) :
    is_same_installed_version s archive name target = true ↔
      ∃ rec, List.lookup (to_file_name name) s.installIndex = some rec ∧
        ∀ e ∈ installEntriesAcc target archive [],
          List.lookup e.1 rec = some (sha256_digest e.2) := by
  unfold is_same_installed_version
  rcases hrec : List.lookup (to_file_name name) s.installIndex with _ | rec
  · simp
  · show check_loop rec target archive [] = true ↔ _
    rw [check_loop_spec]
    constructor
    · intro hall
      exact ⟨rec, rfl, hall⟩
    · rintro ⟨rec', heq, hall⟩
      obtain rfl := Option.some.inj heq
      exact hall

/-- C4 counterexample: installing a one-entry archive and then mutating the
installed file's on-disk bytes (from `[1]` to `[9]`) leaves the idempotency
check returning `true` — the check reads only the persisted record and the
archive, never the installed files. -/
theorem C4_counterexample :
    install_mod { gameFiles := [], installIndex := [] }
        [("user/a.txt", [1])] "m" .server =
      .ok { gameFiles := [("user/a.txt", [1])],
            installIndex := [("m", [("user/a.txt", sha256_digest [1])])] }
    ∧ is_same_installed_version
        { gameFiles := [("user/a.txt", [9])],
          installIndex := [("m", [("user/a.txt", sha256_digest [1])])] }
        [("user/a.txt", [1])] "m" .server = true := by
  decide

/-- C4 (amended): after a successful `install_mod` of an archive whose
installed paths are distinct, the idempotency check against the same archive
and target returns `true`; and the check does not consult the game files at
all, so replacing the on-disk game files with anything — including mutated
bytes for an installed file — leaves it returning `true`. -/
theorem C4_amended_idempotent_reinstall (s s' : SptState)
    (archive : List (String × List Nat)) (name : String) (target : InstallTarget)
    (hnodup : (installed_paths archive target).Nodup)
    (hok : install_mod s archive name target = .ok s') :
    is_same_installed_version s' archive name target = true
    ∧ ∀ files : List (String × List Nat),
        is_same_installed_version { s' with gameFiles := files } archive name target = true := by
  rw [install_mod_spec] at hok
  by_cases hlen : (installEntriesAcc target archive []).length = 0
  · rw [if_pos hlen] at hok
    cases hok
  · rw [if_neg hlen] at hok
    obtain rfl := (Except.ok.inj hok).symm
    have key : ∀ gf : List (String × List Nat),
        is_same_installed_version
          { gameFiles := gf,
            installIndex := assocInsert s.installIndex (to_file_name name)
              ((installEntriesAcc target archive []).foldl
                (fun m e => assocInsert m e.1 (sha256_digest e.2)) []) }
          archive name target = true := by
      intro gf
      unfold is_same_installed_version
      rw [show List.lookup (to_file_name name)
          (assocInsert s.installIndex (to_file_name name)
            ((installEntriesAcc target archive []).foldl
              (fun m e => assocInsert m e.1 (sha256_digest e.2)) [])) =
          some ((installEntriesAcc target archive []).foldl
              (fun m e => assocInsert m e.1 (sha256_digest e.2)) []) from
        lookup_assocInsert_self _ _ _]
      show check_loop _ target archive [] = true
      rw [check_loop_spec]
      exact fun e he => lookup_foldl_assocInsert _ [] hnodup e he
    exact ⟨key _, fun files => key files⟩

/-- Witness for C4 (amended) on a concrete one-entry archive. -/
theorem C4_amended_idempotent_reinstall_witness :
    ((installed_paths [("user/a.txt", [1])] .server).Nodup
      ∧ install_mod { gameFiles := [], installIndex := [] }
          [("user/a.txt", [1])] "m" .server =
        .ok { gameFiles := [("user/a.txt", [1])],
              installIndex := [("m", [("user/a.txt", sha256_digest [1])])] })
    ∧ (is_same_installed_version
          { gameFiles := [("user/a.txt", [1])],
            installIndex := [("m", [("user/a.txt", sha256_digest [1])])] }
          [("user/a.txt", [1])] "m" .server = true
        ∧ ∀ files : List (String × List Nat),
            is_same_installed_version
              { gameFiles := files,
                installIndex := [("m", [("user/a.txt", sha256_digest [1])])] }
              [("user/a.txt", [1])] "m" .server = true) :=
  ⟨⟨by decide, by decide⟩,
    C4_amended_idempotent_reinstall { gameFiles := [], installIndex := [] }
      { gameFiles := [("user/a.txt", [1])],
        installIndex := [("m", [("user/a.txt", sha256_digest [1])])] }
      [("user/a.txt", [1])] "m" .server (by decide) (by decide)⟩

/-- C5: evaluation at the failing input.  An unstructured entry (`"x"`,
bytes `[1]`) precedes the installable entry; because the loop's buffer is
only cleared after an installed entry, the persisted record maps the
installed path to the digest of `[1] ++ [2]`, not of its own content `[2]`,
and the concatenated bytes are what lands on disk.  The zero-match error and
the record overwrite behave as claimed (second conjunct: an archive with no
matching entry errors and writes nothing). -/
theorem C5_buffer_leak_evaluation :
    install_mod { gameFiles := [], installIndex := [] }
        [("x", [1]), ("user/mods/a/p.json", [2])] "m" .server =
      .ok { gameFiles := [("user/mods/a/p.json", [1, 2])],
            installIndex := [("m", [("user/mods/a/p.json", sha256_digest [1, 2])])] }
    ∧ sha256_digest [1, 2] ≠ sha256_digest [2]
    ∧ install_mod { gameFiles := [], installIndex := [] }
        [("x", [1])] "m" .server =
      .error "No files with a structured installation path was found" := by
  decide

/-- `GitHubLink` (`sptmm_lib/src/remote_mod_access/github_mod_repository.rs`). -/
structure GitHubLink where
  owner : String
  repo : String
  asset_pattern : String
  asset_filter : Option String
deriving DecidableEq, Repr

/-- `SptLink` (mod-hub source reference); the URL is kept as a string, the
external `url` crate's re-parse being modelled as the identity on the
already-validated text. -/
structure SptLink where
  link : String
deriving DecidableEq, Repr

/-- `ModKind` (`sptmm_lib/src/remote_mod_access.rs`). -/
inductive ModKind where
  | GitHub (link : GitHubLink)
  | SpTarkov (link : SptLink)
deriving DecidableEq, Repr

/-- `ModManifest` (`cache_mod_access/mod_manifest.rs`); the upload timestamp
is modelled as a plain number. -/
structure ModManifest where
  name : String
  version : SemVer
  uploaded_at : Nat
  mod_kind : ModKind
deriving DecidableEq, Repr

/-- `CachedModVersion` — a manifest plus the path of its paired archive. -/
structure CachedModVersion where
  path : String
  manifest : ModManifest
deriving DecidableEq, Repr

/-- `ModVersion::get_version` through the manifest. -/
def CachedModVersion.get_version (v : CachedModVersion) : SemVer :=
  v.manifest.version

/-- `CachedMod` (`cache_mod_access/cached_mod.rs`). -/
structure CachedMod where
  name : String
  versions : List CachedModVersion
  mod_kind : ModKind
deriving DecidableEq, Repr

/-- `CachedMod::get_newest`: `iter().max()` by the manifest version; Rust's
`max` keeps the later element on ties. -/
def CachedMod.get_newest (m : CachedMod) : Option CachedModVersion :=
  m.versions.foldl
    (fun acc x =>
      match acc with
      | none => some x
      | some mx =>
        if SemVer.cmp mx.get_version x.get_version = .gt then some mx else some x)
    none

/-- `CachedMod::get_version`: first stored version equal to the requested
one. -/
def CachedMod.get_version (m : CachedMod) (v : SemVer) : Option CachedModVersion :=
  m.versions.find? (fun x => x.get_version == v)

/-- `ModCacheStatus` (`cache_mod_access.rs`). -/
inductive ModCacheStatus where
  | NotCached
  | NewerVersion
  | SameVersion
  | OlderVersion
deriving DecidableEq, Repr

/-- `ModDownloadVersion` (`remote_mod_access.rs`); the download URL is kept
as a string. -/
structure ModDownloadVersion where
  title : String
  file_name : String
  download_url : String
  uploaded_at : Nat
  version : SemVer
deriving DecidableEq, Repr

/-- Model of `CacheModAccess::get_status`: find the cached mod with the
candidate's name (`is_same_name` compares display names); absent name or no
stored version → NotCached; otherwise compare the candidate's version with
the newest cached one. -/
def get_status (cached_mods : List CachedMod) (mv : ModDownloadVersion) :
    ModCacheStatus :=
  match cached_mods.find? (fun x => x.name == mv.title) with
  | none => .NotCached
  | some cm =>
    match cm.get_newest with
    | none => .NotCached
    | some cmv =>
      match SemVer.cmp mv.version cmv.get_version with
      | .lt => .NewerVersion
      | .eq => .SameVersion
      | .gt => .OlderVersion

/-- C2: against a cache whose only entry for the candidate's name holds
exactly one version, a strictly smaller candidate version reports
NewerVersion, a strictly larger one OlderVersion, an equal one SameVersion;
and a candidate whose name matches no cached mod reports NotCached. -/
theorem C2_cache_status_ordering (N fn url path : String) (up : Nat) (k : ModKind)
    (a b : SemVer) (hab : SemVer.cmp a b = .lt) :
    get_status [⟨N, [⟨path, ⟨N, b, up, k⟩⟩], k⟩] ⟨N, fn, url, up, a⟩ = .NewerVersion
    ∧ get_status [⟨N, [⟨path, ⟨N, a, up, k⟩⟩], k⟩] ⟨N, fn, url, up, b⟩ = .OlderVersion
    ∧ get_status [⟨N, [⟨path, ⟨N, a, up, k⟩⟩], k⟩] ⟨N, fn, url, up, a⟩ = .SameVersion
    ∧ ∀ mods : List CachedMod, (∀ cm ∈ mods, cm.name ≠ N) →
        get_status mods ⟨N, fn, url, up, a⟩ = .NotCached := by
  refine ⟨?_, ?_, ?_, ?_⟩
  · simp [get_status, CachedMod.get_newest, CachedModVersion.get_version, hab]
  · have hba : SemVer.cmp b a = .gt := by rw [SemVer.cmp_swap, hab]; rfl
    simp [get_status, CachedMod.get_newest, CachedModVersion.get_version, hba]
  · simp [get_status, CachedMod.get_newest, CachedModVersion.get_version, SemVer.cmp_self]
  · intro mods hne
    have hfind : mods.find? (fun x => x.name == (⟨N, fn, url, up, a⟩ :
        ModDownloadVersion).title) = none := by
      rw [List.find?_eq_none]
      intro x hx
      simpa using hne x hx
    simp [get_status, hfind]

/-- Witness for C2 at versions 1.0.0 < 1.2.3. -/
theorem C2_cache_status_ordering_witness :
    SemVer.cmp ⟨1, 0, 0⟩ ⟨1, 2, 3⟩ = .lt
    ∧ (get_status [⟨"mod", [⟨"p", ⟨"mod", ⟨1, 2, 3⟩, 0, .SpTarkov ⟨"u"⟩⟩⟩], .SpTarkov ⟨"u"⟩⟩]
          ⟨"mod", "f", "u", 0, ⟨1, 0, 0⟩⟩ = .NewerVersion
      ∧ get_status [⟨"mod", [⟨"p", ⟨"mod", ⟨1, 0, 0⟩, 0, .SpTarkov ⟨"u"⟩⟩⟩], .SpTarkov ⟨"u"⟩⟩]
          ⟨"mod", "f", "u", 0, ⟨1, 2, 3⟩⟩ = .OlderVersion
      ∧ get_status [⟨"mod", [⟨"p", ⟨"mod", ⟨1, 0, 0⟩, 0, .SpTarkov ⟨"u"⟩⟩⟩], .SpTarkov ⟨"u"⟩⟩]
          ⟨"mod", "f", "u", 0, ⟨1, 0, 0⟩⟩ = .SameVersion
      ∧ ∀ mods : List CachedMod, (∀ cm ∈ mods, cm.name ≠ "mod") →
          get_status mods ⟨"mod", "f", "u", 0, ⟨1, 0, 0⟩⟩ = .NotCached) :=
  ⟨by decide,
    C2_cache_status_ordering "mod" "f" "u" "p" 0 (.SpTarkov ⟨"u"⟩) ⟨1, 0, 0⟩ ⟨1, 2, 3⟩
      (by decide)⟩

/-- Rust `str::starts_with`. -/
def rust_starts_with (s pre : String) : Bool :=
  pre.data.isPrefixOf s.data

def GITHUB_DOMAIN : String := "https://github.com"

def SPT_DOMAIN : String := "https://hub.sp-tarkov.com"

/-- Literal-prefix parser (`"...".parse_peek`): strip the literal or fail. -/
def stripPrefixChars : List Char → List Char → Option (List Char)
  | [], s => some s
  | _, [] => none
  | p :: ps, c :: cs => if p = c then stripPrefixChars ps cs else none

/-- `take_until(0.., c)` with `parse_peek`: the characters before the first
occurrence of `c`, and the rest starting at `c`; fails when `c` is absent. -/
def takeUntilChar (c : Char) : List Char → Option (List Char × List Char)
  | [] => none
  | x :: xs =>
    if x = c then some ([], x :: xs)
    else (takeUntilChar c xs).map (fun r => (x :: r.1, r.2))

/-- `validate_url` of `github_mod_repository.rs`: strip
`https://github.com/`, take the owner up to a `/` (mandatory), skip the `/`,
and take the repo up to an optional further `/` (otherwise the remainder). -/
def gh_validate_url (url : String) : Option (String × String) :=
  match stripPrefixChars "https://github.com/".data url.data with
  | none => none
  | some rest =>
    match takeUntilChar '/' rest with
    | none => none
    | some (owner, rest2) =>
      match rest2 with
      | [] => none
      | _ :: rest3 =>
        let repo := match takeUntilChar '/' rest3 with
          | none => rest3
          | some (r, _) => r
        some (String.mk owner, String.mk repo)

/-- `GitHubLink::parse`. -/
def GitHubLink.parse (url : String) (asset_pattern : String)
    (asset_filter : Option String) : Except String GitHubLink :=
  match gh_validate_url url with
  | none => .error "Failed to parse"
  | some (o, r) => .ok ⟨o, r, asset_pattern, asset_filter⟩

/-- `validate_url` of the mod-hub client (`spt_client.rs`): the fixed
`files/file/` prefix, a non-empty all-digit id before a `-`, and an optional
trailing `segment/` after which the input must end. -/
def spt_validate_url (url : String) : Bool :=
  match stripPrefixChars "https://hub.sp-tarkov.com/files/file/".data url.data with
  | none => false
  | some rest =>
    match takeUntilChar '-' rest with
    | none => false
    | some (numbers, rest2) =>
      if numbers.isEmpty then false
      else if numbers.all (fun c => c.isDigit) then
        match takeUntilChar '/' rest2 with
        | none => true
        | some (seg, rest3) =>
          if seg.isEmpty then true
          else
            match rest3 with
            | _ :: rest4 => rest4.isEmpty
            | [] => false
      else false

/-- `SptLink::parse`: validate, then normalize a missing trailing `/`
(`Url::parse` of the external `url` crate modelled as the identity). -/
def SptLink.parse (url : String) : Except String SptLink :=
  if spt_validate_url url then
    .ok ⟨if url.endsWith "/" then url else url ++ "/"⟩
  else .error "Failed to parse SP Tarkov url"

/-- Model of `ModKind::parse` (`sptmm_lib/src/remote_mod_access.rs`): try
the mod-hub host prefix, then the GitHub host prefix — where a missing asset
pattern is its own error — and otherwise report an unsupported host. -/
def ModKind.parse (url : String) (gh_pattern gh_filter : Option String) :
    Except String ModKind :=
  if rust_starts_with url SPT_DOMAIN then
    match SptLink.parse url with
    | .ok l => .ok (.SpTarkov l)
    | .error e => .error e
  else if rust_starts_with url GITHUB_DOMAIN then
    match gh_pattern with
    | none => .error "No asset pattern was provided for Github"
    | some pattern =>
      match GitHubLink.parse url pattern gh_filter with
      | .ok l => .ok (.GitHub l)
      | .error e => .error e
  else .error ("Unsupported mod host: " ++ url)

/-- A URL with the GitHub host prefix never has the mod-hub host prefix: the
two literals disagree within their common length. -/
theorem gh_not_spt (url : String) (h : rust_starts_with url GITHUB_DOMAIN = true) :
    rust_starts_with url SPT_DOMAIN = false := by
  unfold rust_starts_with at *
  by_contra hspt
  rw [Bool.not_eq_false] at hspt
  have h1 : GITHUB_DOMAIN.data <+: url.data := by
    simpa [List.isPrefixOf_iff_prefix] using h
  have h2 : SPT_DOMAIN.data <+: url.data := by
    simpa [List.isPrefixOf_iff_prefix] using hspt
  rcases List.prefix_or_prefix_of_prefix h1 h2 with hc | hc
  · exact absurd hc (by decide)
  · exact absurd hc (by decide)

/-- C6: parsing a GitHub-hosted URL without an asset pattern fails with the
"no asset pattern" error; a URL matching neither known host prefix fails
with the "unsupported host" error; and the two error messages are distinct
for every URL. -/
theorem C6_host_dispatch_errors :
    (∀ (url : String) (f : Option String),
        rust_starts_with url GITHUB_DOMAIN = true →
          ModKind.parse url none f = .error "No asset pattern was provided for Github")
    ∧ (∀ (url : String) (p f : Option String),
        rust_starts_with url SPT_DOMAIN = false →
          rust_starts_with url GITHUB_DOMAIN = false →
            ModKind.parse url p f = .error ("Unsupported mod host: " ++ url))
    ∧ ∀ url : String,
        ("No asset pattern was provided for Github" : String) ≠
          "Unsupported mod host: " ++ url := by
  refine ⟨?_, ?_, ?_⟩
  · intro url f h
    have hspt := gh_not_spt url h
    simp [ModKind.parse, hspt, h]
  · intro url p f h1 h2
    simp [ModKind.parse, h1, h2]
  · intro url h
    have hd := congrArg String.data h
    rw [string_data_append] at hd
    rw [show ("No asset pattern was provided for Github" : String).data =
        'N' :: "o asset pattern was provided for Github".data from rfl] at hd
    rw [show ("Unsupported mod host: " : String).data ++ url.data =
        'U' :: ("nsupported mod host: ".data ++ url.data) from rfl] at hd
    injection hd with hh _
    exact absurd hh (by decide)

/-- Witness for C6 on concrete URLs of each kind. -/
theorem C6_host_dispatch_errors_witness :
    (rust_starts_with "https://github.com/o/r" GITHUB_DOMAIN = true
      ∧ ModKind.parse "https://github.com/o/r" none none =
          .error "No asset pattern was provided for Github")
    ∧ (rust_starts_with "https://example.com/x" SPT_DOMAIN = false
      ∧ rust_starts_with "https://example.com/x" GITHUB_DOMAIN = false
      ∧ ModKind.parse "https://example.com/x" (some "p") none =
          .error ("Unsupported mod host: " ++ "https://example.com/x")) :=
  ⟨⟨by decide, C6_host_dispatch_errors.1 "https://github.com/o/r" none (by decide)⟩,
    ⟨by decide, by decide,
      C6_host_dispatch_errors.2.1 "https://example.com/x" (some "p") none
        (by decide) (by decide)⟩⟩

/-- C7 counterexample: on `"a.b.c"` the code yields name `"a.b"` and
extension `".c"` — the split is at the last dot, not the first; the
first-dot reading (`("a", ".b.c")` or `("a", "b.c")`) disagrees. -/
theorem C7_counterexample :
    separate_file_and_ext "a.b.c" = ("a.b", some ".c")
    ∧ separate_file_and_ext "a.b.c" ≠ ("a", some ".b.c")
    ∧ separate_file_and_ext "a.b.c" ≠ ("a", some "b.c") := by
  decide

/-- C7 (amended): for every file name, the splitting routine splits at the
LAST dot — the name part is everything before the last dot and the extension
is the last dot together with everything after it — and a name containing no
dot yields no extension. -/
theorem C7_amended_last_dot_split :
    (∀ s : String, '.' ∉ s.data → separate_file_and_ext s = (s, none))
    ∧ ∀ a b : String, '.' ∉ b.data →
        separate_file_and_ext (a ++ "." ++ b) = (a, some ("." ++ b)) :=
  ⟨separate_no_dot, separate_last_dot⟩

/-- Witness for C7 (amended), matching the unit tests in the source. -/
theorem C7_amended_last_dot_split_witness :
    ('.' ∉ "foo".data ∧ separate_file_and_ext "foo" = ("foo", none))
    ∧ ('.' ∉ "zip".data
      ∧ separate_file_and_ext ("1.0.0_maxloo2-betterkeys-updated" ++ "." ++ "zip") =
          ("1.0.0_maxloo2-betterkeys-updated", some ("." ++ "zip"))) :=
  ⟨⟨by decide, C7_amended_last_dot_split.1 "foo" (by decide)⟩,
    ⟨by decide,
      C7_amended_last_dot_split.2 "1.0.0_maxloo2-betterkeys-updated" "zip" (by decide)⟩⟩

/-- `CacheFile` (`cache_mod_access.rs`): the dot-split name, the extension
(as produced by `separate_file_and_ext`), and the full path. -/
structure CacheFile where
  file_name : String
  file_ext : Option String
  path : String
deriving DecidableEq, Repr

/-- `CacheFile::is_manifest`. -/
def CacheFile.is_manifest (cf : CacheFile) : Bool :=
  cf.file_ext == some ".manifest"

/-- The pairing `find` inside `clean_unmanaged_files_and_build_cache`: first
file sharing the dot-split name but with a different extension. -/
def findPaired (full : List CacheFile) (cf : CacheFile) : Option CacheFile :=
  full.find? (fun f => f.file_name == cf.file_name && f.file_ext != cf.file_ext)

/-- The scanning loop of `clean_unmanaged_files_and_build_cache`: walk the
listing, and for every manifest with a pair whose JSON parses, collect the
`CachedModVersion` and mark both paths as kept.  `parse` is the read+parse
of the manifest file at a path (`serde_json::from_slice`), a pure oracle
over the folder's contents. -/
def cleanScan (parse : String → Option ModManifest) (full : List CacheFile) :
    List CacheFile → List CachedModVersion × List String
  | [] => ([], [])
  | cf :: rest =>
    if cf.is_manifest then
      match findPaired full cf with
      | none => cleanScan parse full rest
      | some paired =>
        match parse cf.path with
        | none => cleanScan parse full rest
        | some manifest =>
          let r := cleanScan parse full rest
          (⟨paired.path, manifest⟩ :: r.1, cf.path :: paired.path :: r.2)
    else cleanScan parse full rest

/-- Model of `clean_unmanaged_files_and_build_cache`: the cached versions,
the files that survive, and the files the `swap_remove` loop deletes (every
file whose path is not in `to_keep`; the loop's net effect on the directory
is this partition). -/
def clean_unmanaged_files_and_build_cache (parse : String → Option ModManifest)
    (vec : List CacheFile) :
    List CachedModVersion × List CacheFile × List CacheFile :=
  let r := cleanScan parse vec vec
  (r.1, vec.filter (fun cf => r.2.contains cf.path),
    vec.filter (fun cf => !(r.2.contains cf.path)))

/-- Which paths end up in the keep list of the scanning loop. -/
def KeepSpec (parse : String → Option ModManifest) (full : List CacheFile)
    (l : List CacheFile) (x : String) : Prop :=
  ∃ cf ∈ l, cf.is_manifest = true ∧
    ∃ paired, findPaired full cf = some paired ∧
      (∃ mf, parse cf.path = some mf) ∧ (x = cf.path ∨ x = paired.path)

theorem mem_cleanScan_keep (parse : String → Option ModManifest)
    (full : List CacheFile) (l : List CacheFile) (x : String) :
    x ∈ (cleanScan parse full l).2 ↔ KeepSpec parse full l x := by
  induction l with
  | nil => simp [cleanScan, KeepSpec]
  | cons cf rest ih =>
    by_cases hman : cf.is_manifest = true
    · rcases hfp : findPaired full cf with _ | paired
      · rw [show (cleanScan parse full (cf :: rest)).2 = (cleanScan parse full rest).2 from by
          simp [cleanScan, hman, hfp]]
        rw [ih]
        constructor
        · rintro ⟨cf', hmem, hrest⟩
          exact ⟨cf', List.mem_cons_of_mem _ hmem, hrest⟩
        · rintro ⟨cf', hmem, hman', paired', hfp', hrest⟩
          rcases List.mem_cons.mp hmem with rfl | hmem'
          · rw [hfp] at hfp'; cases hfp'
          · exact ⟨cf', hmem', hman', paired', hfp', hrest⟩
      · rcases hp : parse cf.path with _ | mf
        · rw [show (cleanScan parse full (cf :: rest)).2 = (cleanScan parse full rest).2 from by
            simp [cleanScan, hman, hfp, hp]]
          rw [ih]
          constructor
          · rintro ⟨cf', hmem, hrest⟩
            exact ⟨cf', List.mem_cons_of_mem _ hmem, hrest⟩
          · rintro ⟨cf', hmem, hman', paired', hfp', ⟨mf', hp'⟩, hor⟩
            rcases List.mem_cons.mp hmem with rfl | hmem'
            · rw [hp] at hp'; cases hp'
            · exact ⟨cf', hmem', hman', paired', hfp', ⟨mf', hp'⟩, hor⟩
        · rw [show (cleanScan parse full (cf :: rest)).2 =
              cf.path :: paired.path :: (cleanScan parse full rest).2 from by
            simp [cleanScan, hman, hfp, hp]]
          constructor
          · intro hmem
            rcases List.mem_cons.mp hmem with rfl | hmem2
            · exact ⟨cf, List.mem_cons_self _ _, hman, paired, hfp, ⟨mf, hp⟩, Or.inl rfl⟩
            rcases List.mem_cons.mp hmem2 with rfl | hmem3
            · exact ⟨cf, List.mem_cons_self _ _, hman, paired, hfp, ⟨mf, hp⟩, Or.inr rfl⟩
            · obtain ⟨cf', hmem', hrest⟩ := ih.mp hmem3
              exact ⟨cf', List.mem_cons_of_mem _ hmem', hrest⟩
          · rintro ⟨cf', hmem, hman', paired', hfp', ⟨mf', hp'⟩, hor⟩
            rcases List.mem_cons.mp hmem with rfl | hmem'
            · obtain rfl := Option.some.inj (hfp ▸ hfp')
              rcases hor with rfl | rfl
              · exact List.mem_cons_self _ _
              · exact List.mem_cons_of_mem _ (List.mem_cons_self _ _)
            · refine List.mem_cons_of_mem _ (List.mem_cons_of_mem _ ?_)
              exact ih.mpr ⟨cf', hmem', hman', paired', hfp', ⟨mf', hp'⟩, hor⟩
    · rw [show (cleanScan parse full (cf :: rest)).2 = (cleanScan parse full rest).2 from by
        simp [cleanScan, hman]]
      rw [ih]
      constructor
      · rintro ⟨cf', hmem, hrest⟩
        exact ⟨cf', List.mem_cons_of_mem _ hmem, hrest⟩
      · rintro ⟨cf', hmem, hman', hrest⟩
        rcases List.mem_cons.mp hmem with rfl | hmem'
        · exact absurd hman' hman
        · exact ⟨cf', hmem', hman', hrest⟩

/-- `find?` commutes with `filter` when the found element survives the
filter: the elements before it fail the predicate, and filtering keeps
order. -/
theorem find?_filter_preserved {α : Type} (pr q : α → Bool) (l : List α) (p : α)
    (hf : l.find? pr = some p) (hp : p ∈ l.filter q) :
    (l.filter q).find? pr = some p := by
  induction l with
  | nil => cases hf
  | cons a rest ih =>
    by_cases hpra : pr a = true
    · rw [List.find?_cons_of_pos _ hpra] at hf
      obtain rfl := Option.some.inj hf
      have hqa : q a = true := (List.mem_filter.mp hp).2
      rw [List.filter_cons_of_pos hqa, List.find?_cons_of_pos _ hpra]
    · rw [List.find?_cons_of_neg _ (by simpa using hpra)] at hf
      have hp' : p ∈ rest.filter q := by
        rcases List.mem_filter.mp hp with ⟨hmem, hq⟩
        rcases List.mem_cons.mp hmem with rfl | hmem'
        · exact absurd (List.find?_some hf) (by simpa using hpra)
        · exact List.mem_filter.mpr ⟨hmem', hq⟩
      by_cases hqa : q a = true
      · rw [List.filter_cons_of_pos hqa, List.find?_cons_of_neg _ (by simpa using hpra)]
        exact ih hf hp'
      · rw [List.filter_cons_of_neg (by simpa using hqa)]
        exact ih hf hp'

/-- C8: a manifest file with no paired archive is deleted by one rebuild
pass, and a second rebuild pass on the surviving files deletes nothing (the
pure model errors on nothing; in the source only I/O failures can error). -/
theorem C8_orphan_cleanup_idempotent (parse : String → Option ModManifest)
    (vec : List CacheFile) (m : CacheFile)
    (hm : m ∈ vec) (hman : m.is_manifest = true)
    (hnodup : (vec.map CacheFile.path).Nodup)
    (hnopair : findPaired vec m = none) :
    m ∈ (clean_unmanaged_files_and_build_cache parse vec).2.2
    ∧ (clean_unmanaged_files_and_build_cache parse
        (clean_unmanaged_files_and_build_cache parse vec).2.1).2.2 = [] := by
  have hnotkeep : m.path ∉ (cleanScan parse vec vec).2 := by
    intro hx
    obtain ⟨cf, hcf, hcfman, paired, hfp, ⟨mf, hpar⟩, hor⟩ :=
      (mem_cleanScan_keep parse vec vec m.path).mp hx
    rcases hor with heq | heq
    · have hcm : cf = m := List.inj_on_of_nodup_map hnodup hcf hm heq.symm
      rw [hcm, hnopair] at hfp
      cases hfp
    · have hpmem : paired ∈ vec := List.mem_of_find?_eq_some hfp
      have hppred := List.find?_some hfp
      have hpm : paired = m := List.inj_on_of_nodup_map hnodup hpmem hm heq.symm
      subst hpm
      simp only [CacheFile.is_manifest, beq_iff_eq] at hman hcfman
      simp [hman, hcfman] at hppred
  constructor
  · show m ∈ vec.filter (fun cf => !((cleanScan parse vec vec).2.contains cf.path))
    refine List.mem_filter.mpr ⟨hm, ?_⟩
    simp only [Bool.not_eq_true']
    rw [← Bool.not_eq_true]
    intro hc
    exact hnotkeep (by simpa using hc)
  · have hkept : (clean_unmanaged_files_and_build_cache parse vec).2.1 =
        vec.filter (fun cf => (cleanScan parse vec vec).2.contains cf.path) := rfl
    rw [show (clean_unmanaged_files_and_build_cache parse
          (clean_unmanaged_files_and_build_cache parse vec).2.1).2.2 =
        ((clean_unmanaged_files_and_build_cache parse vec).2.1).filter
          (fun cf => !((cleanScan parse
              (clean_unmanaged_files_and_build_cache parse vec).2.1
              (clean_unmanaged_files_and_build_cache parse vec).2.1).2.contains cf.path))
        from rfl]
    rw [hkept]
    rw [List.filter_eq_nil_iff]
    intro cf hcf
    have hcfk : cf.path ∈ (cleanScan parse vec vec).2 := by
      have := (List.mem_filter.mp hcf).2
      simpa using this
    obtain ⟨cf', hcf', hman', paired, hfp, hpar, hor⟩ :=
      (mem_cleanScan_keep parse vec vec cf.path).mp hcfk
    have hcf'keep : cf'.path ∈ (cleanScan parse vec vec).2 :=
      (mem_cleanScan_keep parse vec vec cf'.path).mpr
        ⟨cf', hcf', hman', paired, hfp, hpar, Or.inl rfl⟩
    have hpairedkeep : paired.path ∈ (cleanScan parse vec vec).2 :=
      (mem_cleanScan_keep parse vec vec paired.path).mpr
        ⟨cf', hcf', hman', paired, hfp, hpar, Or.inr rfl⟩
    have hcf'mem : cf' ∈ vec.filter (fun cf => (cleanScan parse vec vec).2.contains cf.path) :=
      List.mem_filter.mpr ⟨hcf', by simpa using hcf'keep⟩
    have hpairedmem :
        paired ∈ vec.filter (fun cf => (cleanScan parse vec vec).2.contains cf.path) :=
      List.mem_filter.mpr ⟨List.mem_of_find?_eq_some hfp, by simpa using hpairedkeep⟩
    have hfp2 : findPaired
        (vec.filter (fun cf => (cleanScan parse vec vec).2.contains cf.path)) cf' =
        some paired :=
      find?_filter_preserved _ _ vec paired hfp hpairedmem
    have hck2 : cf.path ∈ (cleanScan parse
        (vec.filter (fun cf => (cleanScan parse vec vec).2.contains cf.path))
        (vec.filter (fun cf => (cleanScan parse vec vec).2.contains cf.path))).2 :=
      (mem_cleanScan_keep parse _ _ cf.path).mpr
        ⟨cf', hcf'mem, hman', paired, hfp2, hpar, hor⟩
    intro hcc
    rw [Bool.not_eq_true'] at hcc
    have hnm : cf.path ∉ (cleanScan parse
        (vec.filter (fun cf => (cleanScan parse vec vec).2.contains cf.path))
        (vec.filter (fun cf => (cleanScan parse vec vec).2.contains cf.path))).2 := by
      simpa using hcc
    exact hnm hck2

/-- Witness for C8 on a folder holding exactly one orphan manifest. -/
theorem C8_orphan_cleanup_idempotent_witness :
    ((⟨"a", some ".manifest", "a.manifest"⟩ : CacheFile) ∈
        [(⟨"a", some ".manifest", "a.manifest"⟩ : CacheFile)]
      ∧ (⟨"a", some ".manifest", "a.manifest"⟩ : CacheFile).is_manifest = true
      ∧ ([(⟨"a", some ".manifest", "a.manifest"⟩ : CacheFile)].map CacheFile.path).Nodup
      ∧ findPaired [⟨"a", some ".manifest", "a.manifest"⟩]
          ⟨"a", some ".manifest", "a.manifest"⟩ = none)
    ∧ ((⟨"a", some ".manifest", "a.manifest"⟩ : CacheFile) ∈
        (clean_unmanaged_files_and_build_cache (fun _ => none)
          [⟨"a", some ".manifest", "a.manifest"⟩]).2.2
      ∧ (clean_unmanaged_files_and_build_cache (fun _ => none)
          (clean_unmanaged_files_and_build_cache (fun _ => none)
            [⟨"a", some ".manifest", "a.manifest"⟩]).2.1).2.2 = []) :=
  ⟨⟨by decide, by decide, by decide, by decide⟩,
    C8_orphan_cleanup_idempotent (fun _ => none)
      [⟨"a", some ".manifest", "a.manifest"⟩] ⟨"a", some ".manifest", "a.manifest"⟩
      (by decide) (by decide) (by decide) (by decide)⟩


theorem string_append_assoc (a b c : String) : a ++ b ++ c = a ++ (b ++ c) := by
  cases a; cases b; cases c
  show String.mk _ = String.mk _
  simp [show ∀ x y : List Char, (String.mk x ++ String.mk y) = String.mk (x ++ y) from
    fun x y => rfl]

theorem string_append_left_inj (a : String) {b c : String} (h : a ++ b = a ++ c) : b = c := by
  have hd := congrArg String.data h
  rw [string_data_append, string_data_append] at hd
  have hbc := List.append_cancel_left hd
  cases b; cases c
  exact congrArg String.mk hbc

/-- Contents of a cache file: either a manifest that `serde_json` parses, or
raw archive bytes. -/
inductive FileData where
  | manifestData (m : ModManifest)
  | rawData (bytes : List Nat)
deriving DecidableEq, Repr

/-- The cache directory: per-mod folders, each a listing of named files. -/
abbrev CacheState := List (String × List (String × FileData))

/-- `get_all_files`: list a folder, splitting each name with
`separate_file_and_ext`; the path is the folder-qualified name. -/
def get_all_files (folder : String) (files : List (String × FileData)) :
    List CacheFile :=
  files.map (fun nf =>
    ⟨(separate_file_and_ext nf.1).1, (separate_file_and_ext nf.1).2,
      folder ++ "/" ++ nf.1⟩)

/-- The manifest-parse oracle for a folder: reading a path yields a manifest
exactly when the folder holds a file of that name with parseable manifest
contents. -/
def parseInFolder (folder : String) (files : List (String × FileData)) :
    String → Option ModManifest :=
  fun p =>
    match files.find? (fun nf => (folder ++ "/" ++ nf.1) == p) with
    | some (_, .manifestData m) => some m
    | _ => none

/-- Model of `calculate_cache`: per folder, list files, pair and clean them,
and keep a `CachedMod` (named from the first version's manifest) when at
least one valid pair remains.  The deletions the pass performs on disk are
those of `clean_unmanaged_files_and_build_cache`; the returned index is what
this function models. -/
def calculate_cache (s : CacheState) : List CachedMod :=
  s.filterMap (fun folder =>
    match (clean_unmanaged_files_and_build_cache
        (parseInFolder folder.1 folder.2) (get_all_files folder.1 folder.2)).1 with
    | [] => none
    | c :: rest => some ⟨c.manifest.name, c :: rest, c.manifest.mod_kind⟩)

/-- A resolved download: the transient `ModDownloadVersion` plus the bytes
its `download()` yields (model of `ModVersionDownloader`). -/
structure ModVersionDownloader where
  mod_version : ModDownloadVersion
  data : List Nat
deriving DecidableEq, Repr

/-- `ModVersion::to_file_version`: the rendered version with spaces and
hyphens mapped to underscores. -/
def to_file_version (v : SemVer) : String :=
  String.mk (v.render.data.map space_mapper)

/-- The free `to_file_name` of `cache_mod_access.rs`:
`{version}_{original_file_name}`. -/
def to_file_name_download (d : ModVersionDownloader) : String :=
  to_file_version d.mod_version.version ++ "_" ++ d.mod_version.file_name

/-- `ensure_mod_folder`: create the per-mod folder when missing. -/
def ensure_mod_folder (s : CacheState) (folder : String) : CacheState :=
  if s.any (fun f => f.1 == folder) then s else s ++ [(folder, [])]

/-- Overwrite one folder's listing. -/
def updateFolder (s : CacheState) (folder : String)
    (upd : List (String × FileData) → List (String × FileData)) : CacheState :=
  s.map (fun f => if f.1 == folder then (folder, upd f.2) else f)

/-- Model of `CacheModAccess::cache_mod`: ensure the mod folder, write the
archive bytes to `{version}_{file_name}` and the manifest JSON to the
extension-stripped base plus `.manifest`, rebuild the whole index from disk,
and look the version up in the rebuilt index. -/
def cache_mod (s : CacheState) (d : ModVersionDownloader) (mod_kind : ModKind) :
    CacheState × List CachedMod × Option CachedModVersion :=
  let folder := to_file_name d.mod_version.title
  let s1 := ensure_mod_folder s folder
  let mod_file_name := to_file_name_download d
  let manifest_file_name := (separate_file_and_ext mod_file_name).1 ++ ".manifest"
  let manifest : ModManifest :=
    ⟨d.mod_version.title, d.mod_version.version, d.mod_version.uploaded_at, mod_kind⟩
  let s2 := updateFolder s1 folder (fun files =>
    assocInsert (assocInsert files mod_file_name (.rawData d.data))
      manifest_file_name (.manifestData manifest))
  let mods := calculate_cache s2
  (s2, mods, mods.findSome? (fun m => m.get_version d.mod_version.version))

/-- C9: populating an empty cache with a downloadable of version V and name
N and rebuilding the index from disk yields exactly one CachedModVersion —
carrying version V — and it is reachable by looking up name N and then
version V.  The archive's file name must not itself split to a `.manifest`
extension (otherwise the manifest write would overwrite the archive). -/
theorem C9_cache_round_trip (N F url : String) (V : SemVer) (up : Nat)
    (data : List Nat) (k : ModKind)
    (hext : (separate_file_and_ext (to_file_version V ++ "_" ++ F)).2 ≠ some ".manifest") :
    (cache_mod [] ⟨⟨N, F, url, up, V⟩, data⟩ k).2.1 =
      [⟨N, [⟨to_file_name N ++ "/" ++ (to_file_version V ++ "_" ++ F), ⟨N, V, up, k⟩⟩], k⟩]
    ∧ (((cache_mod [] ⟨⟨N, F, url, up, V⟩, data⟩ k).2.1.find?
          (fun m => m.name == N)).bind (fun m => m.get_version V)) =
        some ⟨to_file_name N ++ "/" ++ (to_file_version V ++ "_" ++ F), ⟨N, V, up, k⟩⟩ := by
  have hsepman : separate_file_and_ext
      ((separate_file_and_ext (to_file_version V ++ "_" ++ F)).1 ++ ".manifest") =
      ((separate_file_and_ext (to_file_version V ++ "_" ++ F)).1, some ".manifest") := by
    have h1 := separate_last_dot
      (separate_file_and_ext (to_file_version V ++ "_" ++ F)).1 "manifest" (by decide)
    rw [string_append_assoc] at h1
    rw [show ("." ++ "manifest" : String) = ".manifest" from rfl] at h1
    exact h1
  have hfneq : (to_file_version V ++ "_" ++ F) ≠
      (separate_file_and_ext (to_file_version V ++ "_" ++ F)).1 ++ ".manifest" := by
    intro heq
    apply hext
    have h2 := congrArg (fun s => (separate_file_and_ext s).2) heq
    simp only at h2
    rw [hsepman] at h2
    exact h2
  have hpneq : (to_file_name N ++ "/" ++ (to_file_version V ++ "_" ++ F)) ≠
      (to_file_name N ++ "/" ++
        ((separate_file_and_ext (to_file_version V ++ "_" ++ F)).1 ++ ".manifest")) :=
    fun heq => hfneq (string_append_left_inj (to_file_name N ++ "/") heq)
  have hs2 : (cache_mod [] ⟨⟨N, F, url, up, V⟩, data⟩ k).1 =
      [(to_file_name N,
        [(to_file_version V ++ "_" ++ F, FileData.rawData data),
          ((separate_file_and_ext (to_file_version V ++ "_" ++ F)).1 ++ ".manifest",
            FileData.manifestData ⟨N, V, up, k⟩)])] := by
    simp [cache_mod, ensure_mod_folder, updateFolder, assocInsert,
      to_file_name_download, hfneq]
  have hmods : calculate_cache
      [(to_file_name N,
        [(to_file_version V ++ "_" ++ F, FileData.rawData data),
          ((separate_file_and_ext (to_file_version V ++ "_" ++ F)).1 ++ ".manifest",
            FileData.manifestData ⟨N, V, up, k⟩)])] =
      [⟨N, [⟨to_file_name N ++ "/" ++ (to_file_version V ++ "_" ++ F), ⟨N, V, up, k⟩⟩], k⟩] := by
    simp [calculate_cache, clean_unmanaged_files_and_build_cache, cleanScan,
      get_all_files, parseInFolder, findPaired, CacheFile.is_manifest, hsepman,
      hext, hpneq, Ne.symm hpneq]
  have hrebuild : (cache_mod [] ⟨⟨N, F, url, up, V⟩, data⟩ k).2.1 =
      calculate_cache ((cache_mod [] ⟨⟨N, F, url, up, V⟩, data⟩ k).1) := rfl
  constructor
  · rw [hrebuild, hs2, hmods]
  · rw [hrebuild, hs2, hmods]
    simp [CachedMod.get_version, CachedModVersion.get_version]

/-- Witness for C9 with a concrete download ("mod", version 1.0.0). -/
theorem C9_cache_round_trip_witness :
    ((separate_file_and_ext (to_file_version ⟨1, 0, 0⟩ ++ "_" ++ "mod.zip")).2 ≠
        some ".manifest")
    ∧ ((cache_mod [] ⟨⟨"mod", "mod.zip", "u", 0, ⟨1, 0, 0⟩⟩, [1]⟩
          (.SpTarkov ⟨"u"⟩)).2.1 =
        [⟨"mod", [⟨to_file_name "mod" ++ "/" ++ (to_file_version ⟨1, 0, 0⟩ ++ "_" ++ "mod.zip"),
            ⟨"mod", ⟨1, 0, 0⟩, 0, .SpTarkov ⟨"u"⟩⟩⟩], .SpTarkov ⟨"u"⟩⟩]
      ∧ (((cache_mod [] ⟨⟨"mod", "mod.zip", "u", 0, ⟨1, 0, 0⟩⟩, [1]⟩
            (.SpTarkov ⟨"u"⟩)).2.1.find? (fun m => m.name == "mod")).bind
          (fun m => m.get_version ⟨1, 0, 0⟩)) =
          some ⟨to_file_name "mod" ++ "/" ++ (to_file_version ⟨1, 0, 0⟩ ++ "_" ++ "mod.zip"),
            ⟨"mod", ⟨1, 0, 0⟩, 0, .SpTarkov ⟨"u"⟩⟩⟩) :=
  ⟨by decide,
    C9_cache_round_trip "mod" "mod.zip" "u" ⟨1, 0, 0⟩ 0 [1] (.SpTarkov ⟨"u"⟩) (by decide)⟩
